import Mathlib

/-!
Verification of the real-time tuner of `src/components/Tuner.tsx`
(the pitch-detection engine: `autoCorrelate`, the note-mapping arithmetic
of `updatePitch`, and the start/stop lifecycle of the tracking loop).

Modelling conventions, chosen to mirror the JavaScript source line by line:

* Audio samples and all estimator arithmetic are exact rationals (`ℚ`);
  JavaScript computes with IEEE doubles, but every branch and index
  computation in the source is preserved exactly.
* JavaScript array reads out of bounds yield `undefined`; every such read in
  the source is modelled with `Option`/`getD` exactly where the source can
  perform one (the `c[d] > c[d+1]` loop and the parabolic-interpolation
  reads), and a comparison with an absent value is `false`, as in JS.
* `Math.sqrt` has no computable counterpart on `ℚ`; the noise gate
  `Math.sqrt(ms) < 0.01` is embedded as `ms < 1/10000`, which is equivalent
  for the nonnegative mean square (lemma `rms_gate_iff` proves the bridge
  against the real square root).
* Division by zero is total (`= 0`) in `ℚ` whereas JS produces `Infinity`;
  wherever this matters the theorems state the exact intermediate values
  (`rawT0 = 0`) so that no conclusion rests on the `0` convention.
* The note-mapper arithmetic of `updatePitch` (lines 82–92) uses `Real.log`
  / `Real.logb` for `Math.log` / `Math.log2`, real exponentiation for
  `Math.pow`, `round` (which Mathlib defines as `⌊x + 1/2⌋`, exactly
  JavaScript's `Math.round`), `Int.floor` for `Math.floor`, and `Int.tmod`
  (truncated remainder, the sign of the dividend) for JavaScript's `%`.
-/

namespace Tuner

/-- Line 8: `NOTE_STRINGS`, the fixed 12-entry chromatic name table
beginning at C — in the source a single array literal `["C", "C#", "D",
"D#", "E", "F", "F#", "G", "G#", "A", "A#", "B"]`. -/
def NOTE_STRINGS : List String :=
  ["C", "C#", "D", "D#", "E", "F"] ++
  ["F#", "G", "G#", "A", "A#", "B"]

/-! ## Pitch estimator: `autoCorrelate` (lines 22–71) -/

/-- Lines 26–29: the accumulation `rms += val * val` over the full window. -/
def sumSquares (buf : List ℚ) : ℚ := buf.foldl (fun acc v => acc + v * v) 0

/-- Line 30 before the square root: `rms*rms = (Σ val²)/size`.  The source
stores `Math.sqrt` of this; the gate on line 33 is expressed on the square
(see `rms_gate_iff`). -/
def meanSquare (buf : List ℚ) : ℚ := sumSquares buf / buf.length

/-- Line 35: `thres = 0.2`. -/
def thres : ℚ := 1/5

/-- Lines 36–38: `r1 = 0; for (i = 0; i < size/2; i++) if (|buf[i]| < thres)
{ r1 = i; break; }`.  The loop body runs for `i ∈ [0, ⌈size/2⌉)`, i.e. for
`i` with `2*i < size`; `(size+1)/2 = ⌈size/2⌉` in `ℕ`. -/
def scanR1 (buf : List ℚ) : ℕ :=
  match (List.range ((buf.length + 1) / 2)).find?
      (fun i => decide (|buf.getD i 0| < thres)) with
  | some i => i
  | none => 0

/-- Lines 39–41: `r2 = size-1; for (i = 1; i < size/2; i++) if
(|buf[size-i]| < thres) { r2 = size - i; break; }`. -/
def scanR2 (buf : List ℚ) : ℕ :=
  match (List.range' 1 ((buf.length + 1) / 2 - 1)).find?
      (fun i => decide (|buf.getD (buf.length - i) 0| < thres)) with
  | some i => buf.length - i
  | none => buf.length - 1

/-- Line 43: `buf = buf.slice(r1, r2)` — the half-open region `[r1, r2)`. -/
def trimmed (buf : List ℚ) : List ℚ :=
  (buf.drop (scanR1 buf)).take (scanR2 buf - scanR1 buf)

/-- Lines 48–50, inner loop: `for (j = 0; j < size - i; j++)
c[i] = c[i] + buf[j] * buf[j + i]`, starting from `c[i] = 0` (line 46). -/
def acfEntry (b : List ℚ) (i : ℕ) : ℚ :=
  (List.range (b.length - i)).foldl
    (fun acc j => acc + b.getD j 0 * b.getD (j + i) 0) 0

/-- Lines 46–51: the autocorrelation array `c` of length `size`. -/
def acfList (b : List ℚ) : List ℚ := (List.range b.length).map (acfEntry b)

/-- JavaScript `>` on possibly-absent array elements: any comparison
involving `undefined` is `false`. -/
def optGT : Option ℚ → Option ℚ → Bool
  | some a, some b => decide (b < a)
  | _, _ => false

/-- Line 54: `while (c[d] > c[d+1]) d++`, run with explicit fuel.  The JS
loop stops at the latest at `d = size - 1`, where `c[d+1]` is `undefined`
and the comparison is `false`, so `c.length + 1` units of fuel make
`dipFrom` compute exactly the loop's result (theorem
`dip_loop_bounded`). -/
def dipFrom (c : List ℚ) : ℕ → ℕ → ℕ
  | 0, d => d
  | fuel + 1, d => if optGT (c.get? d) (c.get? (d + 1)) then dipFrom c fuel (d + 1) else d

/-- Lines 53–54: the first-minimum search starting at `d = 0`. -/
def dipLoop (c : List ℚ) : ℕ := dipFrom c (c.length + 1) 0

/-- Lines 55–61: `maxval = -1; maxpos = -1; for (i = d; i < size; i++)
if (c[i] > maxval) { maxval = c[i]; maxpos = i }`. -/
def peakFold (c : List ℚ) (d : ℕ) : ℚ × ℤ :=
  (List.range' d (c.length - d)).foldl
    (fun mv i => if mv.1 < c.getD i 0 then (c.getD i 0, (i : ℤ)) else mv)
    (-1, -1)

/-- A JavaScript array read at a possibly negative index. -/
def getInt? (c : List ℚ) (i : ℤ) : Option ℚ :=
  if 0 ≤ i then c.get? i.toNat else none

/-- Lines 64–68: parabolic interpolation.  If any of `c[T0-1]`, `c[T0]`,
`c[T0+1]` is absent, the JS arithmetic produces `NaN`, `if (a)` is falsy and
the refinement is skipped; likewise when `a = 0`. -/
def refineT0 (c : List ℚ) (t0 : ℤ) : ℚ :=
  match getInt? c (t0 - 1), getInt? c t0, getInt? c (t0 + 1) with
  | some x1, some x2, some x3 =>
      let a := (x1 + x3 - 2 * x2) / 2
      let b := (x3 - x1) / 2
      if a = 0 then (t0 : ℚ) else (t0 : ℚ) - b / (2 * a)
  | _, _, _ => (t0 : ℚ)

/-- Lines 43–68 composed: the refined period `T0` of the trimmed window. -/
def rawT0 (buf : List ℚ) : ℚ :=
  let c := acfList (trimmed buf)
  refineT0 c (peakFold c (dipLoop c)).2

/-- Lines 22–71: the full pitch estimator.  `-1` is the source's `NoPitch`
sentinel (line 33).  Line 70 divides by the refined period; in `ℚ` a zero
period yields `0` where JS yields `Infinity` — either way the result is not
the sentinel `-1`, and the theorems about degenerate periods state `rawT0`
explicitly. -/
def autoCorrelate (buf : List ℚ) (sampleRate : ℚ) : ℚ :=
  if meanSquare buf < 1/10000 then -1
  else sampleRate / rawT0 buf

/-- Written from the words of the spec's edge-trimming description
("scan forward from the start for the first sample whose absolute value
falls below a fixed threshold"), restricted to the scanned first half: the
position of the first sample of `buf.take ⌈size/2⌉` below the threshold,
defaulting to the window start.  Used to compare the source's indexed scan
`scanR1` against the spec's positional description. -/
def specForwardTrim (buf : List ℚ) : ℕ :=
  ((buf.take ((buf.length + 1) / 2)).findIdx? (fun v => decide (|v| < thres))).getD 0

/-- Written from the words of the spec's backward scan ("scan backward from
the end similarly"), restricted to the scanned offsets `1 ≤ i < size/2`:
the index `size - i` for the first from-the-end offset whose sample is
below the threshold, defaulting to the last index.  Offset `i` from the end
is position `i - 1` of `buf.reverse`. -/
def specBackwardTrim (buf : List ℚ) : ℕ :=
  match (buf.reverse.take ((buf.length + 1) / 2 - 1)).findIdx?
      (fun v => decide (|v| < thres)) with
  | some k => buf.length - (k + 1)
  | none => buf.length - 1

/-! ## Note mapper: lines 82–92 of `updatePitch` -/

/-- JavaScript `%` on integers: remainder with the sign of the dividend. -/
def jsRem (a b : ℤ) : ℤ := Int.tmod a b

/-- Line 82: `noteNum = 12 * (Math.log(freq / 440) / Math.log(2)) + 69`. -/
noncomputable def noteNum (f : ℝ) : ℝ := 12 * (Real.log (f / 440) / Real.log 2) + 69

/-- Line 83: `noteIndex = Math.round(noteNum) % 12`.  Mathlib's `round` is
`⌊x + 1/2⌋`, which is exactly `Math.round`. -/
noncomputable def noteIndex (f : ℝ) : ℤ := jsRem (round (noteNum f)) 12

/-- Line 84: `closestNote = NOTE_STRINGS[noteIndex]` — `none` models the
`undefined` a JS array yields outside `[0, 12)`. -/
noncomputable def closestNote (f : ℝ) : Option String :=
  if 0 ≤ noteIndex f then NOTE_STRINGS.get? (noteIndex f).toNat else none

/-- Line 87: `closestNoteFreq = 440 * Math.pow(2, (Math.round(noteNum) - 69) / 12)`. -/
noncomputable def closestNoteFreq (f : ℝ) : ℝ :=
  440 * (2 : ℝ) ^ ((((round (noteNum f) : ℤ) : ℝ) - 69) / 12)

/-- Line 88: `centDiff = Math.floor(1200 * Math.log2(freq / closestNoteFreq))`. -/
noncomputable def centDiff (f : ℝ) : ℤ :=
  ⌊1200 * Real.logb 2 (f / closestNoteFreq f)⌋

/-! ## Tracking loop: `updatePitch` (lines 73–96), `stopTuner` (lines 116–121) -/

/-- Line 90: `Math.round` applied to the rational pitch estimate. -/
def jsRound (q : ℚ) : ℤ := ⌊q + 1/2⌋

/-- The published reading plus the scheduled-tick handle: the component
state `note`/`cents`/`frequency` (lines 11–13) and `requestRef` (line 19). -/
structure TunerState where
  note : Option String
  cents : ℤ
  frequency : ℤ
  request : Option ℕ
deriving DecidableEq

/-- Lines 11–13, 19: initial component state. -/
def initialState : TunerState :=
  { note := some "--", cents := 0, frequency := 0, request := none }

/-- Lines 79–95, one run of `updatePitch` on a captured window: if the
estimate is not the `-1` sentinel, publish the mapped reading (lines 82–92),
otherwise leave the published fields untouched; in both cases schedule the
next tick (line 95). -/
noncomputable def updatePitchStep (buf : List ℚ) (sampleRate : ℚ) (next : ℕ)
    (s : TunerState) : TunerState :=
  let freq := autoCorrelate buf sampleRate
  if freq ≠ -1 then
    { note := closestNote (freq : ℝ)
      cents := centDiff (freq : ℝ)
      frequency := jsRound freq
      request := some next }
  else
    { s with request := some next }

/-- A tuner session: the pending (scheduled and not cancelled) animation
frame handle, the open audio stream, and the component state. -/
structure Session where
  pending : Option ℕ
  streamOpen : Bool
  tuner : TunerState

/-- Host events: the browser fires the pending animation-frame callback
(which re-schedules itself with a fresh handle), or the component closes.
The host scheduler is modelled as the platform guarantees it: a callback
fires only while its handle is pending, and `cancelAnimationFrame` removes
the pending handle. -/
inductive HostEvent where
  | frame (buf : List ℚ) (sampleRate : ℚ) (next : ℕ)
  | close

/-- One step of a session.  A `frame` event runs `updatePitch` when a tick
is pending (returning whether a `NoteReading` was published this tick);
`close` runs `stopTuner` (lines 116–121): release the stream and cancel the
pending tick, synchronously in one step. -/
noncomputable def sessStep : Session → HostEvent → Session × Bool
  | s, HostEvent.frame buf sr next =>
    match s.pending with
    | none => (s, false)
    | some _ =>
        ({ pending := some next, streamOpen := s.streamOpen
           tuner := updatePitchStep buf sr next s.tuner },
         decide (autoCorrelate buf sr ≠ -1))
  | s, HostEvent.close =>
      ({ pending := none, streamOpen := false, tuner := s.tuner }, false)

/-- Run a list of host events, counting published `NoteReading`s. -/
noncomputable def runSession : Session → List HostEvent → Session × ℕ
  | s, [] => (s, 0)
  | s, e :: es =>
      let step := sessStep s e
      let rest := runSession step.1 es
      (rest.1, (if step.2 then 1 else 0) + rest.2)

/-! ## General helper lemmas -/

lemma optGT_none_right (x : Option ℚ) : optGT x none = false := by
  cases x <;> rfl

lemma optGT_none_left (y : Option ℚ) : optGT none y = false := by
  cases y <;> rfl

lemma optGT_some_some (a b : ℚ) : optGT (some a) (some b) = decide (b < a) := rfl

/-- Unfold a `+`-accumulating `foldl` (the source's `for`-loop accumulators)
into a list sum. -/
lemma foldl_add_extract (f : α → ℚ) (l : List α) (init : ℚ) :
    l.foldl (fun acc x => acc + f x) init = init + (l.map f).sum := by
  induction l generalizing init with
  | nil => simp
  | cons a t ih => simp [ih, add_assoc]

lemma sum_map_range (g : ℕ → ℚ) (n : ℕ) :
    ((List.range n).map g).sum = ∑ j ∈ Finset.range n, g j := by
  induction n with
  | zero => simp
  | succ m ih => rw [List.range_succ, List.map_append, List.sum_append,
      Finset.sum_range_succ, ih]; simp

lemma sumSquares_eq_sum (buf : List ℚ) :
    sumSquares buf = (buf.map (fun v => v * v)).sum := by
  unfold sumSquares; rw [foldl_add_extract (fun v => v * v) buf 0, zero_add]

lemma sumSquares_nonneg (buf : List ℚ) : 0 ≤ sumSquares buf := by
  rw [sumSquares_eq_sum]
  apply List.sum_nonneg
  intro x hx
  rcases List.mem_map.mp hx with ⟨v, _, rfl⟩
  exact mul_self_nonneg v

lemma meanSquare_nonneg (buf : List ℚ) : 0 ≤ meanSquare buf :=
  div_nonneg (sumSquares_nonneg buf) (by positivity)

/-- Bridge to the source's gate on line 33: comparing the real square root
of the mean square against `0.01` is the same as comparing the mean square
against `1/10000`, since the mean square is nonnegative. -/
lemma rms_gate_iff (buf : List ℚ) :
    Real.sqrt ((meanSquare buf : ℚ) : ℝ) < 1/100 ↔ meanSquare buf < 1/10000 := by
  rw [Real.sqrt_lt' (by norm_num : (0:ℝ) < 1/100)]
  constructor
  · intro h
    have h' : ((meanSquare buf : ℚ) : ℝ) < ((1/10000 : ℚ) : ℝ) := by
      push_cast; nlinarith
    exact_mod_cast h'
  · intro h
    have h' : ((meanSquare buf : ℚ) : ℝ) < ((1/10000 : ℚ) : ℝ) := by exact_mod_cast h
    nlinarith [h']

/-! ## Claim theorems -/

/-- Claim C3: whenever the root-mean-square amplitude of a (nonempty)
window is below `0.01`, the estimator returns the `NoPitch` sentinel `-1`
at the line-33 gate, for every sample rate — in particular trimming and
autocorrelation do not affect the result.  (The nonemptiness hypothesis
records that for an empty buffer JavaScript computes `sqrt(0/0) = NaN` and
the gate does not fire; the tracking loop only ever passes windows of 2048
samples.) -/
theorem noise_gate_silences (buf : List ℚ) (sampleRate : ℚ) (h0 : buf ≠ [])
    (h : Real.sqrt ((meanSquare buf : ℚ) : ℝ) < 1/100) :
    autoCorrelate buf sampleRate = -1 := by
  have hq : meanSquare buf < 1/10000 := (rms_gate_iff buf).mp h
  unfold autoCorrelate
  rw [if_pos hq]

/-- Witness for C3: the all-zero window is gated, at sample rate 44100. -/
theorem noise_gate_silences_witness :
    autoCorrelate [0, 0, 0, 0] 44100 = -1 :=
  noise_gate_silences [0, 0, 0, 0] 44100 (by simp)
    (by norm_num [show meanSquare [0, 0, 0, 0] = 0 by norm_num [meanSquare, sumSquares],
          Real.sqrt_zero])

/-- Claim C4: on the trimmed window `b` of length `M`, entry `i` of the
autocorrelation array (for every lag `i < M`) is present and equals
`Σ_{j=0}^{M-i-1} b[j] * b[j+i]`. -/
theorem acf_matches_formula (b : List ℚ) (i : ℕ) (h : i < b.length) :
    (acfList b).get? i = some (acfEntry b i) ∧
    acfEntry b i = ∑ j ∈ Finset.range (b.length - i), b.getD j 0 * b.getD (j + i) 0 := by
  constructor
  · unfold acfList
    rw [List.get?_map, List.get?_range h]
    rfl
  · unfold acfEntry
    rw [foldl_add_extract (fun j => b.getD j 0 * b.getD (j + i) 0) _ 0, zero_add,
      sum_map_range]

/-- Witness for C4: lag 1 of the window `[1, 2, 3]` gives
`1*2 + 2*3 = 8`. -/
theorem acf_matches_formula_witness :
    (acfList [1, 2, 3]).get? 1 = some (acfEntry [1, 2, 3] 1) ∧
    acfEntry [1, 2, 3] 1 =
      ∑ j ∈ Finset.range (([1, 2, 3] : List ℚ).length - 1),
        ([1, 2, 3] : List ℚ).getD j 0 * ([1, 2, 3] : List ℚ).getD (j + 1) 0 :=
  acf_matches_formula [1, 2, 3] 1 (by decide)

/-- Claim C2 (code bug): the source has no degenerate-input guard.  On the
window `[0.9, 0, 0, 0.9]` (RMS ≈ 0.64, well above the gate) the trimmed
window is `[0, 0]` — shorter than 3 samples — the period resolves to
`T0 = 0`, and `autoCorrelate` does not return the `NoPitch` sentinel: line
70 divides by the zero period (`44100 / 0`, which in JavaScript is
`Infinity`, here the total-division value `0`), and `updatePitch` treats
any value other than `-1` as a detection. -/
theorem degenerate_input_not_gated :
    (trimmed [9/10, 0, 0, 9/10]).length = 2 ∧
    rawT0 [9/10, 0, 0, 9/10] = 0 ∧
    autoCorrelate [9/10, 0, 0, 9/10] 44100 ≠ -1 := by
  have htrim : trimmed [9/10, 0, 0, 9/10] = [0, 0] := by
    norm_num [trimmed, scanR1, scanR2, thres,
      show List.range 2 = [0, 1] from rfl, show List.range' 1 1 = [1] from rfl,
      List.find?, List.getD, abs_of_nonneg]
  have hacf : acfList [0, 0] = [0, 0] := by
    norm_num [acfList, acfEntry, show List.range 2 = [0, 1] from rfl, List.getD]
  have hdip : dipLoop [0, 0] = 0 := by
    norm_num [dipLoop, dipFrom, optGT, List.get?]
  have hpeak : peakFold [0, 0] 0 = (0, 0) := by
    norm_num [peakFold, show List.range' 0 2 = [0, 1] from rfl, List.getD]
  have ht0 : rawT0 [9/10, 0, 0, 9/10] = 0 := by
    simp only [rawT0]
    rw [htrim, hacf, hdip, hpeak]
    norm_num [refineT0, getInt?, List.get?]
  refine ⟨by rw [htrim]; rfl, ht0, ?_⟩
  unfold autoCorrelate
  rw [if_neg (by norm_num [meanSquare, sumSquares]), ht0]
  norm_num

/-- Claim C7: on a tick whose estimate is `NoPitch` (`-1`), `updatePitch`
publishes nothing — the note, cents and frequency fields are exactly those
of the previous state — and still schedules the next tick (line 95). -/
theorem noPitch_holds_reading (buf : List ℚ) (sampleRate : ℚ) (next : ℕ)
    (s : TunerState) (h : autoCorrelate buf sampleRate = -1) :
    updatePitchStep buf sampleRate next s = { s with request := some next } := by
  unfold updatePitchStep
  simp [h]

/-- Witness for C7: a silent window leaves the initial reading standing and
schedules tick 1. -/
theorem noPitch_holds_reading_witness :
    updatePitchStep [0, 0, 0, 0] 44100 1 initialState =
      { initialState with request := some 1 } :=
  noPitch_holds_reading [0, 0, 0, 0] 44100 1 initialState
    (by norm_num [autoCorrelate, meanSquare, sumSquares])

/-- Sessions with no pending tick never publish again and never regain a
pending tick (no start event exists after teardown). -/
lemma runSession_no_pending (evs : List Tuner.HostEvent) :
    ∀ s : Session, s.pending = none →
      (runSession s evs).2 = 0 ∧ (runSession s evs).1.pending = none := by
  induction evs with
  | nil => intro s h; exact ⟨rfl, h⟩
  | cons e es ih =>
    intro s h
    cases e with
    | frame buf sr next =>
      have hstep : sessStep s (Tuner.HostEvent.frame buf sr next) = (s, false) := by
        rcases s with ⟨p, so, t⟩
        rcases p with _ | k
        · rfl
        · exact absurd h (by simp)
      simp only [runSession, hstep]
      simpa using ih s h
    | close =>
      simp only [runSession, sessStep]
      simpa using ih _ rfl

/-- Claim C8: closing the session (`stopTuner`, lines 116–121) releases the
stream and cancels the pending animation-frame handle in the same
synchronous step; afterwards no `NoteReading` is ever published, whatever
host events follow and even if a tick was scheduled at the moment of
close — a cancelled callback never fires. -/
theorem close_stops_publishing (s : Session) (evs : List Tuner.HostEvent) :
    (sessStep s Tuner.HostEvent.close).1.pending = none ∧
    (sessStep s Tuner.HostEvent.close).1.streamOpen = false ∧
    (runSession (sessStep s Tuner.HostEvent.close).1 evs).2 = 0 :=
  ⟨rfl, rfl, (runSession_no_pending evs _ rfl).1⟩

/-- Invariant of the line-54 loop `while (c[d] > c[d+1]) d++`: starting
from any `d` in range with enough fuel, the loop stops at an index at most
`c.length - 1` and the guard is false there. -/
lemma dipFrom_bound (c : List ℚ) :
    ∀ (fuel d : ℕ), d + 1 ≤ c.length → c.length - d ≤ fuel →
      dipFrom c fuel d ≤ c.length - 1 ∧
      optGT (c.get? (dipFrom c fuel d)) (c.get? (dipFrom c fuel d + 1)) = false := by
  intro fuel
  induction fuel with
  | zero => intro d hd hf; omega
  | succ m ih =>
    intro d hd hf
    by_cases hg : optGT (c.get? d) (c.get? (d + 1)) = true
    · have hsome : ∃ b, c.get? (d + 1) = some b := by
        cases h2 : c.get? (d + 1) with
        | none => rw [h2, optGT_none_right] at hg; cases hg
        | some b => exact ⟨b, rfl⟩
      rcases hsome with ⟨b, hb⟩
      have hlt : d + 1 < c.length := by
        by_contra hle
        rw [List.get?_eq_none.mpr (by omega)] at hb
        cases hb
      have heq : dipFrom c (m + 1) d = dipFrom c m (d + 1) := by
        show (if optGT (c.get? d) (c.get? (d + 1)) then dipFrom c m (d + 1) else d) =
          dipFrom c m (d + 1)
        rw [if_pos hg]
      rw [heq]
      exact ih (d + 1) (by omega) (by omega)
    · have heq : dipFrom c (m + 1) d = d := by
        show (if optGT (c.get? d) (c.get? (d + 1)) then dipFrom c m (d + 1) else d) = d
        rw [if_neg hg]
      rw [heq]
      exact ⟨by omega, by simpa using hg⟩

/-- Claim C10: for every autocorrelation array `c` with at least one entry,
the first-minimum search terminates (the fuel `c.length + 1` is never
exhausted) at an index `d ≤ c.length - 1`, and it stops because the
comparison at the final `d` — which at `d = c.length - 1` reads one element
past the array, an absent value — is false. -/
theorem dip_loop_bounded (c : List ℚ) (h : 1 ≤ c.length) :
    dipLoop c ≤ c.length - 1 ∧
    optGT (c.get? (dipLoop c)) (c.get? (dipLoop c + 1)) = false := by
  unfold dipLoop
  exact dipFrom_bound c (c.length + 1) 0 (by omega) (by omega)

/-- Witness for C10: on `c = [3, 1, 2]` the loop stops at `d = 1 ≤ 2`. -/
theorem dip_loop_bounded_witness :
    dipLoop [3, 1, 2] ≤ ([3, 1, 2] : List ℚ).length - 1 ∧
    optGT (([3, 1, 2] : List ℚ).get? (dipLoop [3, 1, 2]))
      (([3, 1, 2] : List ℚ).get? (dipLoop [3, 1, 2] + 1)) = false :=
  dip_loop_bounded [3, 1, 2] (by decide)

/-- Claim C9: for windows of the fixed capture size 2048, the forward scan
examines only indices `[0, 1024)` and the backward scan only indices
`(1024, 2047]`, so `r1 < 1024 < r2 ≤ 2047` and the trimmed window
`buf.slice(r1, r2)` has length `r2 - r1 ≥ 2`; in particular it is never
empty. -/
theorem trim_scans_half_window (buf : List ℚ) (h : buf.length = 2048) :
    scanR1 buf < 1024 ∧ 1024 < scanR2 buf ∧ scanR2 buf ≤ 2047 ∧
    2 ≤ (trimmed buf).length := by
  have h1 : scanR1 buf < 1024 := by
    unfold scanR1
    rcases hf : (List.range ((buf.length + 1) / 2)).find?
        (fun i => decide (|buf.getD i 0| < thres)) with _ | i
    · show (0 : ℕ) < 1024
      norm_num
    · show i < 1024
      have hmem := List.mem_of_find?_eq_some hf
      rw [List.mem_range] at hmem
      omega
  have h2 : 1024 < scanR2 buf ∧ scanR2 buf ≤ 2047 := by
    unfold scanR2
    rcases hf : (List.range' 1 ((buf.length + 1) / 2 - 1)).find?
        (fun i => decide (|buf.getD (buf.length - i) 0| < thres)) with _ | i
    · show 1024 < buf.length - 1 ∧ buf.length - 1 ≤ 2047
      omega
    · show 1024 < buf.length - i ∧ buf.length - i ≤ 2047
      have hmem := List.mem_of_find?_eq_some hf
      rw [List.mem_range'_1] at hmem
      omega
  have hlen : (trimmed buf).length = min (scanR2 buf - scanR1 buf) (buf.length - scanR1 buf) := by
    unfold trimmed
    rw [List.length_take, List.length_drop]
  refine ⟨h1, h2.1, h2.2, ?_⟩
  rw [hlen]
  omega

/-- Witness for C9: a full-scale constant window of 2048 samples. -/
theorem trim_scans_half_window_witness :
    scanR1 (List.replicate 2048 (1/2 : ℚ)) < 1024 ∧
    1024 < scanR2 (List.replicate 2048 (1/2 : ℚ)) ∧
    scanR2 (List.replicate 2048 (1/2 : ℚ)) ≤ 2047 ∧
    2 ≤ (trimmed (List.replicate 2048 (1/2 : ℚ))).length :=
  trim_scans_half_window (List.replicate 2048 (1/2 : ℚ)) (List.length_replicate 2048 _)

/-! ## Note-mapper computations -/

/-- Evaluate `noteNum` on an exact power-of-two multiple of 440 Hz. -/
lemma noteNum_pow (x : ℝ) : noteNum (440 * (2 : ℝ) ^ x) = 12 * x + 69 := by
  unfold noteNum
  rw [mul_div_cancel_left₀ _ (by norm_num : (440 : ℝ) ≠ 0),
    Real.log_rpow (by norm_num : (0 : ℝ) < 2), mul_div_assoc,
    div_self (ne_of_gt (Real.log_pos (by norm_num))), mul_one]

lemma noteNum_440 : noteNum 440 = 69 := by
  have h : (440 : ℝ) = 440 * (2 : ℝ) ^ (0 : ℝ) := by
    rw [Real.rpow_zero, mul_one]
  rw [h, noteNum_pow]
  norm_num

lemma noteNum_880 : noteNum 880 = 81 := by
  have h : (880 : ℝ) = 440 * (2 : ℝ) ^ (1 : ℝ) := by
    rw [Real.rpow_one]
    norm_num
  rw [h, noteNum_pow]
  norm_num

lemma round_noteNum_440 : round (noteNum 440) = 69 := by
  rw [noteNum_440, show (69 : ℝ) = ((69 : ℤ) : ℝ) by norm_num, round_intCast]

lemma round_noteNum_880 : round (noteNum 880) = 81 := by
  rw [noteNum_880, show (81 : ℝ) = ((81 : ℤ) : ℝ) by norm_num, round_intCast]

lemma closestNoteFreq_440 : closestNoteFreq 440 = 440 := by
  unfold closestNoteFreq
  rw [round_noteNum_440]
  norm_num

lemma closestNoteFreq_880 : closestNoteFreq 880 = 880 := by
  unfold closestNoteFreq
  rw [round_noteNum_880, show (((81 : ℤ) : ℝ) - 69) / 12 = 1 by norm_num,
    Real.rpow_one]
  norm_num

/-- Claim C6: the mapper sends 440 Hz to pitch class "A" with 0 cents, and
880 Hz — one octave up — to the same pitch class "A", also with 0 cents. -/
theorem octave_equivalence_440_880 :
    closestNote 440 = some "A" ∧ centDiff 440 = 0 ∧
    closestNote 880 = some "A" ∧ centDiff 880 = 0 := by
  have hi440 : noteIndex 440 = 9 := by
    unfold noteIndex
    rw [round_noteNum_440]
    decide
  have hi880 : noteIndex 880 = 9 := by
    unfold noteIndex
    rw [round_noteNum_880]
    decide
  refine ⟨?_, ?_, ?_, ?_⟩
  · unfold closestNote
    rw [hi440]
    rfl
  · unfold centDiff
    rw [closestNoteFreq_440, div_self (by norm_num : (440 : ℝ) ≠ 0),
      Real.logb_one, mul_zero, Int.floor_zero]
  · unfold closestNote
    rw [hi880]
    rfl
  · unfold centDiff
    rw [closestNoteFreq_880, div_self (by norm_num : (880 : ℝ) ≠ 0),
      Real.logb_one, mul_zero, Int.floor_zero]

/-- Claim C1 (code bug): the note index is computed with JavaScript `%`,
which is a truncated remainder, not a mathematical modulo.  At the audible
frequency `440·2^(−74/12) ≈ 6.13 Hz` the rounded note number is `−5`, the
code computes `−5 % 12 = −5` and `NOTE_STRINGS[−5]` is `undefined`
(`none`), so the mapper does not return one of the 12 pitch-class names;
a true mathematical modulo would give index `7` ("G"). -/
theorem note_mapper_negative_remainder_bug :
    0 < 440 * (2 : ℝ) ^ ((-74 : ℝ) / 12) ∧
    440 * (2 : ℝ) ^ ((-74 : ℝ) / 12) ≤ 20000 ∧
    noteIndex (440 * (2 : ℝ) ^ ((-74 : ℝ) / 12)) = -5 ∧
    closestNote (440 * (2 : ℝ) ^ ((-74 : ℝ) / 12)) = none ∧
    (-5 : ℤ) % 12 = 7 ∧ NOTE_STRINGS.get? ((-5 : ℤ) % 12).toNat = some "G" := by
  have hnn : noteNum (440 * (2 : ℝ) ^ ((-74 : ℝ) / 12)) = ((-5 : ℤ) : ℝ) := by
    rw [noteNum_pow]
    norm_num
  have hidx : noteIndex (440 * (2 : ℝ) ^ ((-74 : ℝ) / 12)) = -5 := by
    unfold noteIndex
    rw [hnn, round_intCast]
    decide
  refine ⟨?_, ?_, hidx, ?_, by decide, by decide⟩
  · exact mul_pos (by norm_num) (Real.rpow_pos_of_pos (by norm_num) _)
  · have hr : (2 : ℝ) ^ ((-74 : ℝ) / 12) < 1 :=
      Real.rpow_lt_one_of_one_lt_of_neg (by norm_num) (by norm_num)
    nlinarith
  · unfold closestNote
    rw [hidx]
    norm_num

/-! ## Edge trimming: the indexed scans versus the spec wording -/

lemma find?_congr_mem {p q : ℕ → Bool} :
    ∀ l : List ℕ, (∀ a ∈ l, p a = q a) → l.find? p = l.find? q := by
  intro l
  induction l with
  | nil => intro _; rfl
  | cons a t ih =>
    intro h
    have ha := h a (List.mem_cons_self a t)
    by_cases hq : q a = true
    · rw [List.find?_cons_of_pos _ (ha ▸ hq), List.find?_cons_of_pos _ hq]
    · rw [List.find?_cons_of_neg _ (by rw [ha]; exact hq), List.find?_cons_of_neg _ hq,
        ih (fun b hb => h b (List.mem_cons_of_mem a hb))]

/-- An indexed scan over `range n` (the source's `for (i…) buf[i]` loop) is
the positional scan `findIdx?` over the first `n` elements. -/
lemma find?_range_eq_findIdx?_take (p : ℚ → Bool) :
    ∀ (n : ℕ) (l : List ℚ), n ≤ l.length →
      (List.range n).find? (fun i => p (l.getD i 0)) = (l.take n).findIdx? p := by
  intro n
  induction n with
  | zero => intro l _; simp
  | succ m ih =>
    intro l h
    cases l with
    | nil => simp at h
    | cons a t =>
      rw [List.range_succ_eq_map, List.take_succ_cons, List.findIdx?_cons]
      by_cases hp : p a = true
      · rw [List.find?_cons_of_pos _ (by simpa using hp), if_pos hp]
      · rw [List.find?_cons_of_neg _ (by simpa using hp), if_neg hp,
          List.find?_map, List.findIdx?_succ]
        have hc : ((fun i => p ((a :: t).getD i 0)) ∘ Nat.succ)
            = fun i => p (t.getD i 0) := rfl
        rw [hc, ih t (by simpa using h)]

lemma getD_reverse (l : List ℚ) (k : ℕ) (h : k < l.length) :
    l.reverse.getD k 0 = l.getD (l.length - 1 - k) 0 := by
  rw [List.getD_eq_getElem?_getD, List.getD_eq_getElem?_getD, List.getElem?_reverse h]

lemma scanR1_le_length (buf : List ℚ) : scanR1 buf ≤ buf.length := by
  unfold scanR1
  rcases hf : (List.range ((buf.length + 1) / 2)).find?
      (fun i => decide (|buf.getD i 0| < thres)) with _ | i
  · show 0 ≤ buf.length
    omega
  · show i ≤ buf.length
    have hmem := List.mem_of_find?_eq_some hf
    rw [List.mem_range] at hmem
    omega

lemma scanR2_le_length (buf : List ℚ) : scanR2 buf ≤ buf.length := by
  unfold scanR2
  rcases hf : (List.range' 1 ((buf.length + 1) / 2 - 1)).find?
      (fun i => decide (|buf.getD (buf.length - i) 0| < thres)) with _ | i
  · show buf.length - 1 ≤ buf.length
    omega
  · show buf.length - i ≤ buf.length
    omega

/-- A slice `l.slice(r, r+n)` read off element by element. -/
lemma drop_take_eq_map_range (l : List ℚ) (r n : ℕ) (h : r + n ≤ l.length) :
    (l.drop r).take n = (List.range n).map (fun k => l.getD (r + k) 0) := by
  apply List.ext_getElem?
  intro i
  rw [List.getElem?_take, List.getElem?_map]
  by_cases hi : i < n
  · rw [if_pos hi, List.getElem?_drop, List.getElem?_range hi]
    have hlt : r + i < l.length := by omega
    rw [List.getElem?_eq_getElem hlt]
    simp [List.getD_eq_getElem?_getD, List.getElem?_eq_getElem hlt]
  · rw [if_neg hi, List.getElem?_eq_none (by simpa using hi), Option.map_none']

/-- Claim C5, counterexample to the claim as stated: in the window
`[0.5, 0.5, 0.1, 0.1]` the first index whose sample's absolute value falls
below 0.2 is 2 (and some sample does cross the threshold, so the claim's
default clause does not apply), yet the code's forward trim point is 0 —
the forward scan only examines the first half `i < size/2 = 2`. -/
theorem trim_first_index_claim_false :
    ¬ (|([1/2, 1/2, 1/10, 1/10] : List ℚ).getD 0 0| < thres) ∧
    ¬ (|([1/2, 1/2, 1/10, 1/10] : List ℚ).getD 1 0| < thres) ∧
    (|([1/2, 1/2, 1/10, 1/10] : List ℚ).getD 2 0| < thres) ∧
    scanR1 [1/2, 1/2, 1/10, 1/10] = 0 := by
  refine ⟨by norm_num [List.getD, thres, abs_of_nonneg],
    by norm_num [List.getD, thres, abs_of_nonneg],
    by norm_num [List.getD, thres, abs_of_nonneg], ?_⟩
  norm_num [scanR1, thres, show List.range 2 = [0, 1] from rfl,
    List.find?, List.getD, abs_of_nonneg]

/-- Claim C5 as amended (scans restricted to the examined first half): the
code's forward trim point is the position of the first sample of the first
half (`i < size/2`) below the threshold, defaulting to the window start;
the backward trim point is found symmetrically from the end among offsets
`1 ≤ i < size/2`, defaulting to the last index; and the window passed to
autocorrelation is exactly the half-open region `[r1, r2)` between the two
trim points, element by element. -/
theorem trim_matches_spec_on_half (buf : List ℚ) :
    scanR1 buf = specForwardTrim buf ∧
    scanR2 buf = specBackwardTrim buf ∧
    trimmed buf = (List.range (scanR2 buf - scanR1 buf)).map
      (fun k => buf.getD (scanR1 buf + k) 0) := by
  refine ⟨?_, ?_, ?_⟩
  · unfold scanR1 specForwardTrim
    rw [find?_range_eq_findIdx?_take (fun v => decide (|v| < thres))
      ((buf.length + 1) / 2) buf (by omega)]
    rcases hf : (buf.take ((buf.length + 1) / 2)).findIdx?
        (fun v => decide (|v| < thres)) with _ | i <;> rfl
  · unfold scanR2 specBackwardTrim
    have hmlen : (buf.length + 1) / 2 - 1 ≤ buf.reverse.length := by
      rw [List.length_reverse]; omega
    have key : (List.range' 1 ((buf.length + 1) / 2 - 1)).find?
          (fun i => decide (|buf.getD (buf.length - i) 0| < thres))
        = ((buf.reverse.take ((buf.length + 1) / 2 - 1)).findIdx?
            (fun v => decide (|v| < thres))).map (fun k => 1 + k) := by
      rw [List.range'_eq_map_range, List.find?_map]
      have hcong : (List.range ((buf.length + 1) / 2 - 1)).find?
            ((fun i => decide (|buf.getD (buf.length - i) 0| < thres)) ∘ (fun x => 1 + x))
          = (List.range ((buf.length + 1) / 2 - 1)).find?
            (fun k => decide (|buf.reverse.getD k 0| < thres)) := by
        apply find?_congr_mem
        intro k hk
        rw [List.mem_range] at hk
        have hk' : k < buf.length := by omega
        show decide (|buf.getD (buf.length - (1 + k)) 0| < thres)
          = decide (|buf.reverse.getD k 0| < thres)
        rw [getD_reverse buf k hk', show buf.length - (1 + k) = buf.length - 1 - k by omega]
      rw [hcong, find?_range_eq_findIdx?_take (fun v => decide (|v| < thres))
        ((buf.length + 1) / 2 - 1) buf.reverse hmlen]
    rw [key]
    rcases hf : (buf.reverse.take ((buf.length + 1) / 2 - 1)).findIdx?
        (fun v => decide (|v| < thres)) with _ | k
    · rfl
    · show buf.length - (1 + k) = buf.length - (k + 1)
      omega
  · unfold trimmed
    exact drop_take_eq_map_range buf (scanR1 buf) (scanR2 buf - scanR1 buf)
      (by have h1 := scanR1_le_length buf; have h2 := scanR2_le_length buf; omega)

end Tuner
